import Mathlib

/-!
Verification of the coverage/alignment engine of
`scripts/generate_coverage_reports.py` (nanopore plasmid assembly pipeline).

Sequences are shallowly embedded as `List Char` (one Python string character
per list element); FASTA input is a list of lines, each a `List Char`.
Python float scores are modelled as exact rationals `ℚ`: the scores compared
here are quotients of small naturals, and the properties checked concern the
exact values 1.0 and the thresholds 0.7 / 0.8, where float and rational
comparison agree.
-/

namespace CovEngine

/-- One character of `comp.get(base, 'N')` in `reverse_complement`
(source lines 137-140): A↔T, G↔C, N→N, anything else → N. -/
def complementChar (c : Char) : Char :=
  if c = 'A' then 'T'
  else if c = 'T' then 'A'
  else if c = 'G' then 'C'
  else if c = 'C' then 'G'
  else 'N'

/-- `reverse_complement(seq)` (source lines 137-140):
`''.join(comp.get(base, 'N') for base in reversed(seq))`. -/
def reverse_complement (s : List Char) : List Char :=
  (s.reverse).map complementChar

/-- Number of aligned positions where the two sequences agree:
`sum(1 for j in range(match_len) if read_seq[j] == ref_seq[i + j])`
applied to the two already-cut windows of equal length. -/
def countMatches : List Char → List Char → ℕ
  | a :: as, b :: bs => (if a = b then 1 else 0) + countMatches as bs
  | _, _ => 0

/-- `match_len = min(read_len, ref_len - i)` (source lines 110, 124). -/
def matchLenAt (read ref : List Char) (i : ℕ) : ℕ :=
  min read.length (ref.length - i)

/-- The match count of candidate window `i`:
`sum(1 for j in range(match_len) if read_seq[j] == ref_seq[i + j])`
(source lines 114, 128). -/
def matchesAt (read ref : List Char) (i : ℕ) : ℕ :=
  countMatches (read.take (matchLenAt read ref i))
    ((ref.drop i).take (matchLenAt read ref i))

/-- `score = matches / match_len if match_len > 0 else 0`
(source lines 115, 129), with Python float division modelled in `ℚ`. -/
def scoreAt (read ref : List Char) (i : ℕ) : ℚ :=
  if 0 < matchLenAt read ref i then
    (matchesAt read ref i : ℚ) / (matchLenAt read ref i : ℚ)
  else 0

/-- One iteration of either scan loop of `simple_align` (source lines
109-119 and 123-133): skip the candidate if `match_len < min_match`,
otherwise replace the running best `(best_score, best_pos)` on a strictly
better score. -/
def scanStep (read ref : List Char) (minMatch : ℕ) (st : ℚ × ℤ) (i : ℕ) :
    ℚ × ℤ :=
  if matchLenAt read ref i < minMatch then st
  else if st.1 < scoreAt read ref i then (scoreAt read ref i, (i : ℤ))
  else st

/-- The candidate start positions
`range(max(0, ref_len - read_len - 100), min(ref_len - min_match + 1, ref_len))`
(source lines 109, 123), with the Python bound arithmetic done in `ℤ` so
that negative bounds yield an empty range exactly as in Python. -/
def candidates (readLen refLen minMatch : ℕ) : List ℕ :=
  let start : ℤ := max 0 ((refLen : ℤ) - (readLen : ℤ) - 100)
  let stop : ℤ := min ((refLen : ℤ) - (minMatch : ℤ) + 1) (refLen : ℤ)
  List.range' start.toNat (stop - start).toNat

/-- The `(best_score, best_pos)` state after both scan loops of
`simple_align`: the forward scan over the read, then the reverse-complement
scan over `rev_read`, continuing from the forward state (source lines
105-133), starting from `best_score = 0`, `best_pos = -1`. -/
def alignScan (read ref : List Char) (minMatch : ℕ) : ℚ × ℤ :=
  let fwd := (candidates read.length ref.length minMatch).foldl
    (scanStep read ref minMatch) (0, -1)
  let rev := reverse_complement read
  (candidates rev.length ref.length minMatch).foldl (scanStep rev ref minMatch) fwd

/-- `simple_align(read_seq, ref_seq, min_match=20)` (source lines 100-135):
`return best_pos if best_score > 0.7 else -1`. The orientation of the best
match is not part of the return value. -/
def simple_align (read ref : List Char) (minMatch : ℕ) : ℤ :=
  if 7 / 10 < (alignScan read ref minMatch).1 then (alignScan read ref minMatch).2
  else -1

/-- The score of a candidate window as an exact fraction
`(numerator, denominator)` with positive denominator; `ratOf` of this pair
is `scoreAt`. Used by the kernel-computable mirror of the scan. -/
def scorePairAt (read ref : List Char) (i : ℕ) : ℕ × ℕ :=
  if 0 < matchLenAt read ref i then (matchesAt read ref i, matchLenAt read ref i)
  else (0, 1)

/-- The rational value of a fraction pair. -/
def ratOf (p : ℕ × ℕ) : ℚ := (p.1 : ℚ) / (p.2 : ℚ)

/-- Kernel-computable mirror of `scanStep`: the running best score is kept
as a fraction pair and compared by cross-multiplication, which agrees with
the rational comparison because denominators are positive (see
`foldl_scanStep_eq_exec`). -/
def scanStepE (read ref : List Char) (minMatch : ℕ) (st : (ℕ × ℕ) × ℤ)
    (i : ℕ) : (ℕ × ℕ) × ℤ :=
  if matchLenAt read ref i < minMatch then st
  else if st.1.1 * (scorePairAt read ref i).2 <
      (scorePairAt read ref i).1 * st.1.2 then (scorePairAt read ref i, (i : ℤ))
  else st

/-- Kernel-computable mirror of `alignScan`. -/
def alignScanE (read ref : List Char) (minMatch : ℕ) : (ℕ × ℕ) × ℤ :=
  let fwd := (candidates read.length ref.length minMatch).foldl
    (scanStepE read ref minMatch) ((0, 1), -1)
  let rev := reverse_complement read
  (candidates rev.length ref.length minMatch).foldl (scanStepE rev ref minMatch) fwd

/-- Kernel-computable mirror of `simple_align`; proved equal to it in
`simple_align_eq_exec`. -/
def simple_alignE (read ref : List Char) (minMatch : ℕ) : ℤ :=
  if 7 * (alignScanE read ref minMatch).1.2 < 10 * (alignScanE read ref minMatch).1.1
  then (alignScanE read ref minMatch).2
  else -1

/-- The per-position base tally `{'A': 0, 'T': 0, 'G': 0, 'C': 0}`
(source line 160), with the four keys in Python dict insertion order. -/
structure Counts where
  A : ℕ
  T : ℕ
  G : ℕ
  C : ℕ
deriving Repr, DecidableEq

/-- The all-zero tally a fresh position starts from (source line 160). -/
def Counts.zero : Counts := ⟨0, 0, 0, 0⟩

/-- `sum(counts.values())` (source lines 215, 261). -/
def Counts.total (c : Counts) : ℕ := c.A + c.T + c.G + c.C

/-- `counts.get(b, 0)` (source lines 220, 241-244): the tally of one of the
four symbols, 0 for any other character. -/
def countsGet (c : Counts) (b : Char) : ℕ :=
  if b = 'A' then c.A
  else if b = 'T' then c.T
  else if b = 'G' then c.G
  else if b = 'C' then c.C
  else 0

/-- `base_counts[pos + i][base] += 1` (source line 188) for `base` one of
A/T/G/C; identity on any other character (the source guards the call with
`base in 'ATGC'`, mirrored at the call site as well). -/
def Counts.inc (c : Counts) (b : Char) : Counts :=
  if b = 'A' then { c with A := c.A + 1 }
  else if b = 'T' then { c with T := c.T + 1 }
  else if b = 'G' then { c with G := c.G + 1 }
  else if b = 'C' then { c with C := c.C + 1 }
  else c

/-- The accumulator state of `compute_coverage` for one contig: the depth
array `coverage` (source line 156; `depth_per_pos` is updated identically
and never read back) and the per-position tallies `base_counts`
(source line 160), both indexed by reference position. -/
structure CovState where
  depth : ℕ → ℕ
  bases : ℕ → Counts

/-- The state before any read is folded in: all depths 0, all tallies zero
(source lines 156-160). -/
def initState : CovState := ⟨fun _ => 0, fun _ => Counts.zero⟩

/-- The body of the per-offset update loop (source lines 180-188): for
offset `i` of a read mapped at `pos`, if `pos + i < ref_len` increment
`coverage[pos + i]` and, when `read_seq[i].upper()` is one of A/T/G/C,
tally it into `base_counts[pos + i]`. -/
def updatePos (ref read : List Char) (pos : ℕ) (st : CovState) (i : ℕ) :
    CovState :=
  if pos + i < ref.length then
    { depth := fun j => if j = pos + i then st.depth j + 1 else st.depth j,
      bases := fun j =>
        if j = pos + i then
          let b := (read.getD i ' ').toUpper
          if b = 'A' ∨ b = 'T' ∨ b = 'G' ∨ b = 'C' then (st.bases j).inc b
          else st.bases j
        else st.bases j }
  else st

/-- Folding one read into the accumulator (source lines 173-188):
`pos = simple_align(read_seq.upper(), ref_seq)`; if `pos >= 0`, run the
update loop over `range(min(read_len, ref_len - pos))`. -/
def applyRead (ref : List Char) (st : CovState) (read : List Char) : CovState :=
  let pos := simple_align (read.map Char.toUpper) ref 20
  if 0 ≤ pos then
    (List.range (min read.length (ref.length - pos.toNat))).foldl
      (updatePos ref read pos.toNat) st
  else st

/-- The accumulator after folding a whole list of reads into the fresh
state, in order (source lines 156-188). -/
def compute_coverage_fold (ref : List Char) (reads : List (List Char)) :
    CovState :=
  reads.foldl (applyRead ref) initState

/-- `max(counts.items(), key=lambda x: x[1])[0]` (source line 219): Python's
`max` walks the items in dict insertion order A, T, G, C and replaces the
running best only on a strictly larger count, so the first maximal symbol
in that order wins. -/
def consensusBase (c : Counts) : Char :=
  (([('T', c.T), ('G', c.G), ('C', c.C)] : List (Char × ℕ)).foldl
    (fun best x => if best.2 < x.2 then x else best) ('A', c.A)).1

/-- The largest of the four tallies of a position. -/
def maxCount (c : Counts) : ℕ := max c.A (max c.T (max c.G c.C))

/-- The first symbol of the insertion-order scan A, T, G, C whose tally is
maximal; stated from the amended reading of the consensus tie-break. -/
def firstTiedATGC (c : Counts) : Char :=
  if c.A = maxCount c then 'A'
  else if c.T = maxCount c then 'T'
  else if c.G = maxCount c then 'G'
  else 'C'

/-- The first symbol of the scan order A, G, T, C claimed by the spec whose
tally is maximal; used to compare the claimed tie-break with the code's. -/
def firstTiedAGTC (c : Counts) : Char :=
  if c.A = maxCount c then 'A'
  else if c.G = maxCount c then 'G'
  else if c.T = maxCount c then 'T'
  else 'C'

/-- Guarded division: `none` exactly when the Python expression
`match_count / total_bases` would raise `ZeroDivisionError`. -/
def safeDiv (a b : ℕ) : Option ℚ :=
  if b = 0 then none else some ((a : ℚ) / (b : ℚ))

/-- `⌊q⌉` with ties to the even integer, the rounding Python's fixed-point
formatting applies (the two differ from binary-float formatting only on
values a double cannot represent exactly; it is evaluated here only at
exactly representable points such as 1.0). -/
def roundHalfEven (q : ℚ) : ℤ :=
  let f := Rat.floor q
  let r := q - (f : ℚ)
  if r < 1 / 2 then f
  else if 1 / 2 < r then f + 1
  else if f % 2 = 0 then f else f + 1

/-- `f"{vaf:.2f}"` (source lines 240, 270) for the nonnegative scores
appearing here: the value rounded to two decimals and printed with
exactly two fractional digits. -/
def formatVaf2 (q : ℚ) : String :=
  let n := (roundHalfEven (q * 100)).toNat
  let frac := n % 100
  toString (n / 100) ++ "." ++
    (if frac < 10 then "0" ++ toString frac else toString frac)

/-- The numeric `vaf` of the per-base loop (source lines 218-225):
`match_count / total_bases` when any base was tallied, else `1.0`. -/
def vafNum (refBase : Char) (c : Counts) : ℚ :=
  if 0 < c.total then (countsGet c refBase : ℚ) / (c.total : ℚ) else 1

/-- `'low' if depth < 3 or vaf < 0.8 else ''` (source line 228) as the
predicate flagging a position low-confidence. -/
def lowConfB (refBase : Char) (depth : ℕ) (c : Counts) : Bool :=
  decide (depth < 3) || decide (vafNum refBase c < 4 / 5)

/-- One data row of the per-base details CSV (source lines 235-250),
restricted to the columns the specification constrains: 1-based position,
consensus base, depth, match count, and the VAF column as the literal
string written. -/
structure Row where
  pos : ℕ
  base : Char
  depth : ℕ
  match_count : ℕ
  vaf : String
deriving Repr, DecidableEq

/-- The per-base row of reference position `i` (source lines 209-250).
`none` would mark a division by zero; every division of the source is
behind a `total_bases > 0` guard, mirrored by `safeDiv`. -/
def perBaseRow (refBase : Char) (depth : ℕ) (c : Counts) (i : ℕ) :
    Option Row :=
  if 0 < c.total then
    match (if 0 < c.total then safeDiv (countsGet c refBase) c.total else some 0) with
    | none => none
    | some v =>
      some { pos := i + 1, base := consensusBase c, depth := depth,
             match_count := countsGet c refBase,
             vaf := if 0 < depth then formatVaf2 v else "1.0" }
  else
    some { pos := i + 1, base := refBase, depth := depth, match_count := 0,
           vaf := if 0 < depth then formatVaf2 1 else "1.0" }

/-- The positions collected into `low_conf_positions` while the per-base
loop runs (source lines 203, 229-230): appended in increasing position
order whenever the confidence flag is `'low'`. -/
def low_conf_positions (ref : List Char) (st : CovState) : List ℕ :=
  (List.range ref.length).foldl
    (fun acc i =>
      if lowConfB (ref.getD i ' ') (st.depth i) (st.bases i) then acc ++ [i]
      else acc) []

/-- The numeric `vaf` of the low-confidence loop (source line 263):
`match_count / total_bases if total_bases > 0 else 0` (note the `0`
default, unlike the per-base loop). -/
def lowVafNum (refBase : Char) (c : Counts) : ℚ :=
  if 0 < c.total then (countsGet c refBase : ℚ) / (c.total : ℚ) else 0

/-- One data row of the low-confidence CSV (source lines 265-276): the
reference base is written in the base column. -/
def lowRow (ref : List Char) (st : CovState) (p : ℕ) : Row :=
  { pos := p + 1, base := ref.getD p ' ', depth := st.depth p,
    match_count := countsGet (st.bases p) (ref.getD p ' '),
    vaf := if 0 < st.depth p then formatVaf2 (lowVafNum (ref.getD p ' ') (st.bases p))
           else "1.0" }

/-- The data rows of the low-confidence CSV:
`for pos in low_conf_positions[:100]` (source line 257). -/
def low_conf_table (ref : List Char) (st : CovState) : List Row :=
  ((low_conf_positions ref st).take 100).map (lowRow ref st)

/-- A candidate window that the forward scan scores 1.0: it clears the
`min_match` length bar and every aligned character agrees. -/
def perfectB (read ref : List Char) (minMatch : ℕ) (i : ℕ) : Bool :=
  decide (minMatch ≤ matchLenAt read ref i) &&
    decide (matchesAt read ref i = matchLenAt read ref i)

/-- Python `line.startswith('>')` on one FASTA line. -/
def startsWithGT (l : List Char) : Bool :=
  match l with
  | c :: _ => c = '>'
  | [] => false

/-- Python `s.strip()`: both ends trimmed of whitespace. -/
def stripCh (l : List Char) : List Char :=
  ((l.dropWhile Char.isWhitespace).reverse.dropWhile Char.isWhitespace).reverse

/-- `line[1:].strip().split()[0]` (source line 58): the first
whitespace-delimited token of the stripped header tail; returns `[]` for a
bare `>` line (a corner the source would crash on instead, not exercised
by any claim checked here). -/
def firstToken (l : List Char) : List Char :=
  (l.dropWhile Char.isWhitespace).takeWhile (fun c => !c.isWhitespace)

/-- `sequences[current_id] = ...` for a Python dict kept as an ordered
association list: overwrite in place if the key is present, else append. -/
def dictInsert (m : List (List Char × List Char)) (k v : List Char) :
    List (List Char × List Char) :=
  if (m.lookup k).isSome then m.map (fun p => if p.1 = k then (k, v) else p)
  else m ++ [(k, v)]

/-- The running state of `read_fasta` (source lines 49-51):
`(sequences, current_id, current_seq)`. -/
def fastaStep (st : List (List Char × List Char) × List Char × List Char)
    (line : List Char) :
    List (List Char × List Char) × List Char × List Char :=
  if startsWithGT line then
    (if st.2.1 ≠ [] then dictInsert st.1 st.2.1 (st.2.2.map Char.toUpper)
     else st.1,
     firstToken (stripCh (line.drop 1)), [])
  else (st.1, st.2.1, st.2.2 ++ stripCh line)

/-- The flush after the line loop (source lines 63-64):
`if current_id: sequences[current_id] = current_seq.upper()`. -/
def fastaFinish (st : List (List Char × List Char) × List Char × List Char) :
    List (List Char × List Char) :=
  if st.2.1 ≠ [] then dictInsert st.1 st.2.1 (st.2.2.map Char.toUpper)
  else st.1

/-- `read_fasta(fasta_file)` (source lines 47-66) over the file's lines. -/
def read_fasta (lines : List (List Char)) : List (List Char × List Char) :=
  fastaFinish (lines.foldl fastaStep ([], [], []))

/-- The failure the specification's error taxonomy assigns to malformed
FASTA: sequence data preceding any header. -/
inductive FormatError where
  | orphanSequence
deriving Repr, DecidableEq

/-- Modelled from the spec: `load_fasta` as §4.1 demands it — identical
parse, but "on malformed input (no header before sequence lines) fails
with a `FormatError`"; the source's `read_fasta` has no failure path, so
the spec-demanded behaviour is reconstructed here for comparison. -/
def load_fasta_spec (lines : List (List Char)) :
    Except FormatError (List (List Char × List Char)) :=
  if lines.takeWhile (fun m => !startsWithGT m) ≠ [] then .error .orphanSequence
  else .ok (read_fasta lines)

/-! ## Helper lemmas -/

theorem countMatches_le_left : ∀ (a b : List Char), countMatches a b ≤ a.length := by
  intro a
  induction a with
  | nil => intro b; cases b <;> simp [countMatches]
  | cons x xs ih =>
    intro b
    cases b with
    | nil => simp [countMatches]
    | cons y ys =>
      simp only [countMatches, List.length_cons]
      have := ih ys
      split <;> omega

theorem countMatches_self : ∀ (a : List Char), countMatches a a = a.length := by
  intro a
  induction a with
  | nil => rfl
  | cons x xs ih => simp [countMatches, ih, Nat.add_comm]

theorem reverse_complement_length (s : List Char) :
    (reverse_complement s).length = s.length := by
  simp [reverse_complement]

theorem scoreAt_eq_ratOf (read ref : List Char) (i : ℕ) :
    scoreAt read ref i = ratOf (scorePairAt read ref i) := by
  unfold scoreAt scorePairAt ratOf
  split
  · rfl
  · norm_num

theorem scorePairAt_den_pos (read ref : List Char) (i : ℕ) :
    0 < (scorePairAt read ref i).2 := by
  unfold scorePairAt
  split <;> simp_all

theorem ratOf_lt_ratOf (a b : ℕ × ℕ) (ha : 0 < a.2) (hb : 0 < b.2) :
    ratOf a < ratOf b ↔ a.1 * b.2 < b.1 * a.2 := by
  unfold ratOf
  rw [div_lt_div_iff₀ (by exact_mod_cast ha) (by exact_mod_cast hb)]
  exact_mod_cast Iff.rfl

theorem foldl_scanStep_eq_exec (read ref : List Char) (minMatch : ℕ) :
    ∀ (l : List ℕ) (stE : (ℕ × ℕ) × ℤ), 0 < stE.1.2 →
      l.foldl (scanStep read ref minMatch) (ratOf stE.1, stE.2) =
        (ratOf (l.foldl (scanStepE read ref minMatch) stE).1,
          (l.foldl (scanStepE read ref minMatch) stE).2) ∧
      0 < (l.foldl (scanStepE read ref minMatch) stE).1.2 := by
  intro l
  induction l with
  | nil => intro stE h; exact ⟨rfl, h⟩
  | cons i l ih =>
    intro stE h
    simp only [List.foldl_cons]
    have hstep : scanStep read ref minMatch (ratOf stE.1, stE.2) i =
        (ratOf (scanStepE read ref minMatch stE i).1,
          (scanStepE read ref minMatch stE i).2) ∧
        0 < (scanStepE read ref minMatch stE i).1.2 := by
      unfold scanStep scanStepE
      by_cases hskip : matchLenAt read ref i < minMatch
      · rw [if_pos hskip, if_pos hskip]; exact ⟨rfl, h⟩
      · rw [if_neg hskip, if_neg hskip]
        have hcmp := ratOf_lt_ratOf stE.1 (scorePairAt read ref i) h
          (scorePairAt_den_pos read ref i)
        by_cases himp : stE.1.1 * (scorePairAt read ref i).2 <
            (scorePairAt read ref i).1 * stE.1.2
        · have hlt : (ratOf stE.1, stE.2).1 < scoreAt read ref i := by
            show ratOf stE.1 < scoreAt read ref i
            rw [scoreAt_eq_ratOf]; exact hcmp.mpr himp
          rw [if_pos hlt, if_pos himp]
          exact ⟨by rw [scoreAt_eq_ratOf], scorePairAt_den_pos read ref i⟩
        · have hnlt : ¬ (ratOf stE.1, stE.2).1 < scoreAt read ref i := by
            show ¬ ratOf stE.1 < scoreAt read ref i
            rw [scoreAt_eq_ratOf]; exact fun hc => himp (hcmp.mp hc)
          rw [if_neg hnlt, if_neg himp]
          exact ⟨rfl, h⟩
    rw [hstep.1]
    exact ih (scanStepE read ref minMatch stE i) hstep.2

theorem alignScan_eq_exec (read ref : List Char) (minMatch : ℕ) :
    alignScan read ref minMatch =
      (ratOf (alignScanE read ref minMatch).1, (alignScanE read ref minMatch).2) ∧
    0 < (alignScanE read ref minMatch).1.2 := by
  unfold alignScan alignScanE
  have h0 : (0 : ℚ × ℤ).1 = ratOf ((0, 1) : ℕ × ℕ) := by simp [ratOf]
  have h1 := foldl_scanStep_eq_exec read ref minMatch
    (candidates read.length ref.length minMatch) ((0, 1), -1) (by norm_num)
  have heq0 : ((0 : ℚ), (-1 : ℤ)) = (ratOf (0, 1), (-1 : ℤ)) := by simp [ratOf]
  rw [heq0, h1.1]
  exact foldl_scanStep_eq_exec (reverse_complement read) ref minMatch
    (candidates (reverse_complement read).length ref.length minMatch) _ h1.2

theorem simple_align_eq_exec (read ref : List Char) (minMatch : ℕ) :
    simple_align read ref minMatch = simple_alignE read ref minMatch := by
  unfold simple_align simple_alignE
  obtain ⟨heq, hpos⟩ := alignScan_eq_exec read ref minMatch
  rw [heq]
  have hcmp : (7 / 10 : ℚ) < ratOf (alignScanE read ref minMatch).1 ↔
      7 * (alignScanE read ref minMatch).1.2 < 10 * (alignScanE read ref minMatch).1.1 := by
    unfold ratOf
    rw [div_lt_div_iff₀ (by norm_num)
      (by exact_mod_cast hpos : (0 : ℚ) < ((alignScanE read ref minMatch).1.2 : ℚ))]
    rw [mul_comm ((alignScanE read ref minMatch).1.1 : ℚ) 10]
    exact_mod_cast Iff.rfl
  show (if (7:ℚ)/10 < ratOf (alignScanE read ref minMatch).1
      then (alignScanE read ref minMatch).2 else -1) = _
  by_cases h : (7 / 10 : ℚ) < ratOf (alignScanE read ref minMatch).1
  · rw [if_pos h, if_pos (hcmp.mp h)]
  · rw [if_neg h, if_neg (fun hc => h (hcmp.mpr hc))]

theorem foldl_scanStep_short (read ref : List Char) (minMatch : ℕ)
    (h : read.length < minMatch) :
    ∀ (l : List ℕ) (st : ℚ × ℤ), l.foldl (scanStep read ref minMatch) st = st := by
  intro l
  induction l with
  | nil => intro st; rfl
  | cons i l ih =>
    intro st
    simp only [List.foldl_cons]
    have hstep : scanStep read ref minMatch st i = st := by
      unfold scanStep
      rw [if_pos (by unfold matchLenAt; omega)]
    rw [hstep]
    exact ih st

/-! ## C9 -/

/-- C9: a read shorter than `min_match = 20` can never be mapped: every
candidate window fails the `match_len < min_match` bar in both
orientations, so `simple_align` returns `-1` (Unmapped). -/
theorem short_read_unmapped (read ref : List Char) (h : read.length < 20) :
    simple_align read ref 20 = -1 := by
  have hrev : (reverse_complement read).length < 20 := by
    rw [reverse_complement_length]; exact h
  simp only [simple_align, alignScan]
  rw [foldl_scanStep_short read ref 20 h, foldl_scanStep_short _ ref 20 hrev]
  norm_num

/-- Witness for C9 at a concrete one-base read. -/
theorem short_read_unmapped_witness :
    (['A'] : List Char).length < 20 ∧
      simple_align ['A'] (List.replicate 30 'A') 20 = -1 :=
  ⟨by decide, short_read_unmapped ['A'] (List.replicate 30 'A') (by decide)⟩

/-! ## C5 -/

/-- C5 counterexample: `reverse_complement` is not an involution on every
string — a character outside {A,T,G,C,N} collapses to `'N'`, so the double
reverse complement of `"X"` is `"N"`, not `"X"`. -/
theorem rc_involution_counterexample :
    reverse_complement (reverse_complement ['X']) = ['N'] ∧
      (['N'] : List Char) ≠ ['X'] := by decide

/-- C5 amended: on strings over the alphabet {A,T,G,C,N} — the alphabet on
which the character map of the source is defined — `reverse_complement` is
an involution, and it is length-preserving on every string. -/
theorem rc_involution_on_alphabet (s : List Char)
    (h : ∀ c ∈ s, c = 'A' ∨ c = 'T' ∨ c = 'G' ∨ c = 'C' ∨ c = 'N') :
    reverse_complement (reverse_complement s) = s ∧
      (reverse_complement s).length = s.length := by
  refine ⟨?_, reverse_complement_length s⟩
  have h2 : reverse_complement (reverse_complement s) =
      s.map (fun c => complementChar (complementChar c)) := by
    unfold reverse_complement
    simp [List.map_reverse, List.map_map, Function.comp]
  rw [h2]
  have hp : ∀ c ∈ s, complementChar (complementChar c) = c := by
    intro c hc
    rcases h c hc with rfl | rfl | rfl | rfl | rfl <;> rfl
  rw [List.map_congr_left hp]
  simp

/-- Witness for C5 at a concrete DNA string. -/
theorem rc_involution_on_alphabet_witness :
    (∀ c ∈ ("GATTACAN".toList), c = 'A' ∨ c = 'T' ∨ c = 'G' ∨ c = 'C' ∨ c = 'N') ∧
      (reverse_complement (reverse_complement ("GATTACAN".toList)) = "GATTACAN".toList ∧
        (reverse_complement ("GATTACAN".toList)).length = ("GATTACAN".toList).length) :=
  ⟨by decide, rc_involution_on_alphabet ("GATTACAN".toList) (by decide)⟩

/-! ## C7 -/

/-- C7: a reference position with depth 0 always gets the literal string
`"1.0"` in the VAF column of the per-base table, and the row is produced
without any division by zero (the guarded division never returns `none`). -/
theorem zero_depth_vaf_literal (refBase : Char) (c : Counts) (i : ℕ) (depth : ℕ)
    (hd : depth = 0) :
    ∃ r, perBaseRow refBase depth c i = some r ∧ r.vaf = "1.0" := by
  subst hd
  unfold perBaseRow
  by_cases h : 0 < c.total
  · rw [if_pos h, if_pos h]
    unfold safeDiv
    rw [if_neg (by omega)]
    exact ⟨_, rfl, rfl⟩
  · rw [if_neg h]
    exact ⟨_, rfl, rfl⟩

/-- Witness for C7 at a concrete position (depth 0, one stray tally). -/
theorem zero_depth_vaf_literal_witness :
    (0 = 0) ∧ ∃ r, perBaseRow 'A' 0 ⟨1, 0, 0, 0⟩ 5 = some r ∧ r.vaf = "1.0" :=
  ⟨rfl, zero_depth_vaf_literal 'A' ⟨1, 0, 0, 0⟩ 5 0 rfl⟩

/-! ## C10 -/

/-- C10: a position with positive depth but no A/T/G/C base calls gets a
row with the reference base as consensus, match count 0 and VAF string
`"1.00"` (the value 1.0 formatted to two decimals), with no division by
zero performed. -/
theorem covered_no_calls_row (refBase : Char) (c : Counts) (i depth : ℕ)
    (hd : 0 < depth) (ht : c.total = 0) :
    ∃ r, perBaseRow refBase depth c i = some r ∧ r.base = refBase ∧
      r.match_count = 0 ∧ r.vaf = "1.00" := by
  unfold perBaseRow
  rw [if_neg (by omega)]
  refine ⟨_, rfl, rfl, rfl, ?_⟩
  show (if 0 < depth then formatVaf2 1 else "1.0") = "1.00"
  rw [if_pos hd]
  unfold formatVaf2 roundHalfEven
  norm_num [Rat.floor]
  decide

/-- Witness for C10 at a concrete position (depth 1, empty tally). -/
theorem covered_no_calls_row_witness :
    (0 < 1 ∧ Counts.total ⟨0, 0, 0, 0⟩ = 0) ∧
      ∃ r, perBaseRow 'G' 1 ⟨0, 0, 0, 0⟩ 3 = some r ∧ r.base = 'G' ∧
        r.match_count = 0 ∧ r.vaf = "1.00" :=
  ⟨⟨by decide, by decide⟩,
    covered_no_calls_row 'G' ⟨0, 0, 0, 0⟩ 3 1 (by decide) (by decide)⟩

/-! ## C4 -/

/-- C4 counterexample: at a position where T and G are tied at the maximum
count, the per-base record reports consensus `'T'` (the dict insertion
order is A, T, G, C), while the claimed scan order A, G, T, C would report
`'G'`. -/
theorem consensus_tie_counterexample :
    perBaseRow 'A' 0 ⟨0, 1, 1, 0⟩ 0 =
      some { pos := 1, base := 'T', depth := 0, match_count := 0, vaf := "1.0" } ∧
    maxCount ⟨0, 1, 1, 0⟩ = 1 ∧ (⟨0, 1, 1, 0⟩ : Counts).T = 1 ∧
      (⟨0, 1, 1, 0⟩ : Counts).G = 1 ∧
    firstTiedAGTC ⟨0, 1, 1, 0⟩ = 'G' ∧ ('T' : Char) ≠ 'G' := by decide

/-- C4 amended: the consensus reported by the per-base record is the first
of the tied symbols in the insertion-order scan A, T, G, C (for every
tally, the code's max computation returns the first maximal symbol in that
order). -/
theorem consensus_first_tied_ATGC (c : Counts) :
    consensusBase c = firstTiedATGC c := by
  rcases c with ⟨a, t, g, k⟩
  simp only [consensusBase, firstTiedATGC, maxCount, List.foldl]
  dsimp only
  split_ifs <;> first | rfl | omega

/-! ## C2 -/

set_option maxRecDepth 1000000 in
/-- C2: the code tallies the k-th base of the ORIGINAL forward read even
when only the reverse-complement orientation matched. On the reference
G^25 A^5 and the read C^20, the forward scan finds nothing (state stays
`(0, -1)`), the read maps at 0 only as its reverse complement G^20, yet the
accumulator tallies `'C'` (count C = 1, count G = 0) at every covered
position — the correctly oriented base `'G'` is never counted. -/
theorem rc_read_tallies_forward_base :
    simple_align (List.replicate 20 'C')
        (List.replicate 25 'G' ++ List.replicate 5 'A') 20 = 0 ∧
    (candidates 20 30 20).foldl
        (scanStep (List.replicate 20 'C')
          (List.replicate 25 'G' ++ List.replicate 5 'A') 20) (0, -1) = (0, -1) ∧
    reverse_complement (List.replicate 20 'C') = List.replicate 20 'G' ∧
    (compute_coverage_fold (List.replicate 25 'G' ++ List.replicate 5 'A')
        [List.replicate 20 'C']).depth 0 = 1 ∧
    (compute_coverage_fold (List.replicate 25 'G' ++ List.replicate 5 'A')
        [List.replicate 20 'C']).bases 0 = ⟨0, 0, 0, 1⟩ := by
  have hes := simple_align_eq_exec (List.replicate 20 'C')
    (List.replicate 25 'G' ++ List.replicate 5 'A') 20
  have halign : simple_align (List.replicate 20 'C')
      (List.replicate 25 'G' ++ List.replicate 5 'A') 20 = 0 := by
    rw [hes]; decide
  have hup : (List.replicate 20 'C').map Char.toUpper = List.replicate 20 'C' := by
    decide
  have hfold := foldl_scanStep_eq_exec (List.replicate 20 'C')
    (List.replicate 25 'G' ++ List.replicate 5 'A') 20
    (candidates 20 30 20) ((0, 1), -1) (by norm_num)
  have hfwdE : (candidates 20 30 20).foldl
      (scanStepE (List.replicate 20 'C')
        (List.replicate 25 'G' ++ List.replicate 5 'A') 20) ((0, 1), -1) =
      ((0, 1), -1) := by decide
  refine ⟨halign, ?_, by decide, ?_, ?_⟩
  · have h0 : ((0 : ℚ), (-1 : ℤ)) = (ratOf (0, 1), (-1 : ℤ)) := by
      simp [ratOf]
    rw [h0, hfold.1, hfwdE]
  · show (compute_coverage_fold _ _).depth 0 = 1
    simp only [compute_coverage_fold, List.foldl_cons, List.foldl_nil, applyRead,
      hup, halign]
    decide
  · show (compute_coverage_fold _ _).bases 0 = (⟨0, 0, 0, 1⟩ : Counts)
    simp only [compute_coverage_fold, List.foldl_cons, List.foldl_nil, applyRead,
      hup, halign]
    decide

/-! ## C3 -/

theorem fasta_fold_orphan_indep :
    ∀ (rest : List (List Char)) (s t : List Char),
      fastaFinish (rest.foldl fastaStep ([], [], s)) =
        fastaFinish (rest.foldl fastaStep ([], [], t)) := by
  intro rest
  induction rest with
  | nil => intro s t; rfl
  | cons l rest ih =>
    intro s t
    simp only [List.foldl_cons]
    by_cases hl : startsWithGT l
    · have hs : fastaStep ([], [], s) l =
          ([], firstToken (stripCh (l.drop 1)), []) := by
        simp [fastaStep, hl]
      have ht : fastaStep ([], [], t) l =
          ([], firstToken (stripCh (l.drop 1)), []) := by
        simp [fastaStep, hl]
      rw [hs, ht]
    · have hs : fastaStep ([], [], s) l = ([], [], s ++ stripCh l) := by
        simp [fastaStep, hl]
      have ht : fastaStep ([], [], t) l = ([], [], t ++ stripCh l) := by
        simp [fastaStep, hl]
      rw [hs, ht]
      exact ih _ _

theorem fasta_fold_orphan_pre :
    ∀ (pre : List (List Char)), (∀ l ∈ pre, startsWithGT l = false) →
      ∀ s : List Char, ∃ s', pre.foldl fastaStep ([], [], s) = ([], [], s') := by
  intro pre
  induction pre with
  | nil => intro _ s; exact ⟨s, rfl⟩
  | cons l pre ih =>
    intro h s
    have hl : startsWithGT l = false := h l (by simp)
    simp only [List.foldl_cons]
    have hstep : fastaStep ([], [], s) l = ([], [], s ++ stripCh l) := by
      simp [fastaStep, hl]
    rw [hstep]
    exact ih (fun m hm => h m (by simp [hm])) (s ++ stripCh l)

/-- C3 counterexample: on input whose first line is sequence data, the
source's `read_fasta` does not fail — it returns a normal mapping with the
orphan line silently dropped (the result is identical to parsing the input
without the orphan line), while the specification's `load_fasta` demands a
`FormatError` there. -/
theorem read_fasta_orphan_counterexample :
    read_fasta ["ACGT".toList, ">id1".toList, "GGGG".toList] =
        [("id1".toList, "GGGG".toList)] ∧
      read_fasta [">id1".toList, "GGGG".toList] =
        [("id1".toList, "GGGG".toList)] ∧
      load_fasta_spec ["ACGT".toList, ">id1".toList, "GGGG".toList] =
        .error .orphanSequence :=
  ⟨by decide, by decide, rfl⟩

/-- C3 amended: `read_fasta` never fails on orphan leading sequence lines;
it silently drops them — parsing any input with non-header lines prepended
yields exactly the mapping of the input without them. -/
theorem read_fasta_drops_orphans (pre rest : List (List Char))
    (h : ∀ l ∈ pre, startsWithGT l = false) :
    read_fasta (pre ++ rest) = read_fasta rest := by
  unfold read_fasta
  rw [List.foldl_append]
  obtain ⟨s', hs'⟩ := fasta_fold_orphan_pre pre h []
  rw [hs']
  exact fasta_fold_orphan_indep rest s' []

/-- Witness for C3 at a concrete orphan line. -/
theorem read_fasta_drops_orphans_witness :
    (∀ l ∈ [("ACGT".toList)], startsWithGT l = false) ∧
      read_fasta (["ACGT".toList] ++ [">x".toList, "AA".toList]) =
        read_fasta [">x".toList, "AA".toList] :=
  ⟨by decide, read_fasta_drops_orphans ["ACGT".toList] [">x".toList, "AA".toList]
    (by decide)⟩

/-! ## C6 -/

theorem counts_inc_total_le (c : Counts) (b : Char) :
    (c.inc b).total ≤ c.total + 1 := by
  rcases c with ⟨a, t, g, k⟩
  unfold Counts.inc Counts.total
  split_ifs <;> dsimp only <;> omega

theorem updatePos_inv (ref read : List Char) (pos i : ℕ) (st : CovState)
    (h : ∀ j, (st.bases j).total ≤ st.depth j) :
    ∀ j, ((updatePos ref read pos st i).bases j).total ≤
      (updatePos ref read pos st i).depth j := by
  intro j
  unfold updatePos
  by_cases hin : pos + i < ref.length
  · rw [if_pos hin]
    dsimp only
    by_cases hj : j = pos + i
    · rw [if_pos hj, if_pos hj]
      split_ifs with hb
      · exact le_trans (counts_inc_total_le _ _) (by have := h j; omega)
      · exact le_trans (h j) (by omega)
    · rw [if_neg hj, if_neg hj]
      exact h j
  · rw [if_neg hin]
    exact h j

theorem foldl_updatePos_inv (ref read : List Char) (pos : ℕ) :
    ∀ (l : List ℕ) (st : CovState), (∀ j, (st.bases j).total ≤ st.depth j) →
      ∀ j, ((l.foldl (updatePos ref read pos) st).bases j).total ≤
        (l.foldl (updatePos ref read pos) st).depth j := by
  intro l
  induction l with
  | nil => intro st h; exact h
  | cons i l ih =>
    intro st h
    simp only [List.foldl_cons]
    exact ih (updatePos ref read pos st i) (updatePos_inv ref read pos i st h)

theorem applyRead_inv (ref : List Char) (st : CovState) (read : List Char)
    (h : ∀ j, (st.bases j).total ≤ st.depth j) :
    ∀ j, ((applyRead ref st read).bases j).total ≤ (applyRead ref st read).depth j := by
  intro j
  simp only [applyRead]
  split
  · exact foldl_updatePos_inv ref read _ _ st h j
  · exact h j

/-- C6: for every reference, every list of reads folded into the fresh
accumulator and every position `i`, the sum of the four base tallies at
`i` never exceeds the depth at `i`; since the statement quantifies over
arbitrary read lists, the invariant holds after every per-read update. -/
theorem base_counts_le_depth (ref : List Char) (reads : List (List Char)) (i : ℕ) :
    ((compute_coverage_fold ref reads).bases i).total ≤
      (compute_coverage_fold ref reads).depth i := by
  unfold compute_coverage_fold
  have hinit : ∀ j, ((initState).bases j).total ≤ (initState).depth j := by
    intro j
    simp [initState, Counts.zero, Counts.total]
  have hmain : ∀ (rs : List (List Char)) (st : CovState),
      (∀ j, (st.bases j).total ≤ st.depth j) →
      ∀ j, ((rs.foldl (applyRead ref) st).bases j).total ≤
        (rs.foldl (applyRead ref) st).depth j := by
    intro rs
    induction rs with
    | nil => intro st h; exact h
    | cons r rs ih =>
      intro st h
      simp only [List.foldl_cons]
      exact ih (applyRead ref st r) (applyRead_inv ref st r h)
  exact hmain reads initState hinit i

/-! ## C8 -/

theorem foldl_append_filter (q : ℕ → Bool) :
    ∀ (l acc : List ℕ),
      l.foldl (fun a i => if q i then a ++ [i] else a) acc = acc ++ l.filter q := by
  intro l
  induction l with
  | nil => intro acc; simp
  | cons x l ih =>
    intro acc
    simp only [List.foldl_cons, List.filter_cons]
    by_cases hx : q x
    · rw [if_pos hx, if_pos hx, ih (acc ++ [x])]
      simp
    · rw [if_neg hx, if_neg hx]
      exact ih acc

theorem low_conf_positions_eq_filter (ref : List Char) (st : CovState) :
    low_conf_positions ref st = (List.range ref.length).filter
      (fun i => lowConfB (ref.getD i ' ') (st.depth i) (st.bases i)) := by
  unfold low_conf_positions
  rw [foldl_append_filter]
  simp

/-- C8: the low-confidence table has at most 100 data rows; its rows are
exactly the first 100 positions flagged low-confidence
(`depth < 3` or `vaf < 0.8`) scanned in increasing position order, and
every listed position is flagged. -/
theorem low_conf_table_first_hundred (ref : List Char) (st : CovState) :
    (low_conf_table ref st).length ≤ 100 ∧
    low_conf_table ref st = (((List.range ref.length).filter
        (fun i => lowConfB (ref.getD i ' ') (st.depth i) (st.bases i))).take 100).map
      (lowRow ref st) ∧
    ((low_conf_positions ref st).take 100).Pairwise (· < ·) ∧
    ∀ p ∈ (low_conf_positions ref st).take 100,
      lowConfB (ref.getD p ' ') (st.depth p) (st.bases p) = true := by
  have he := low_conf_positions_eq_filter ref st
  refine ⟨?_, ?_, ?_, ?_⟩
  · simp [low_conf_table, List.length_take]
  · unfold low_conf_table
    rw [he]
  · rw [he]
    refine List.Pairwise.sublist ?_ (List.pairwise_lt_range ref.length)
    exact (List.take_sublist 100 _).trans (List.filter_sublist _)
  · intro p hp
    rw [he] at hp
    have hmem := List.take_subset 100 _ hp
    exact (List.mem_filter.mp hmem).2

/-! ## C1 -/

theorem matchesAt_le (read ref : List Char) (i : ℕ) :
    matchesAt read ref i ≤ matchLenAt read ref i := by
  unfold matchesAt
  refine le_trans (countMatches_le_left _ _) ?_
  simp [List.length_take]

theorem scoreAt_le_one (read ref : List Char) (i : ℕ) : scoreAt read ref i ≤ 1 := by
  unfold scoreAt
  split
  · rename_i h
    rw [div_le_one (by exact_mod_cast h)]
    exact_mod_cast matchesAt_le read ref i
  · norm_num

theorem scoreAt_eq_one_of_perfect (read ref : List Char) (minMatch i : ℕ)
    (hm : 0 < minMatch) (hp : perfectB read ref minMatch i = true) :
    scoreAt read ref i = 1 := by
  unfold perfectB at hp
  simp only [Bool.and_eq_true, decide_eq_true_eq] at hp
  unfold scoreAt
  rw [if_pos (by omega), hp.2]
  exact div_self (by exact_mod_cast (by omega : matchLenAt read ref i ≠ 0))

theorem scoreAt_lt_one_of_imperfect (read ref : List Char) (minMatch i : ℕ)
    (hlen : ¬ matchLenAt read ref i < minMatch) (hm : 0 < minMatch)
    (hp : ¬ perfectB read ref minMatch i = true) :
    scoreAt read ref i < 1 := by
  unfold perfectB at hp
  simp only [Bool.and_eq_true, decide_eq_true_eq, not_and] at hp
  have hne : matchesAt read ref i ≠ matchLenAt read ref i := hp (by omega)
  have hlt : matchesAt read ref i < matchLenAt read ref i :=
    lt_of_le_of_ne (matchesAt_le read ref i) hne
  unfold scoreAt
  rw [if_pos (by omega)]
  rw [div_lt_one (by exact_mod_cast (by omega : 0 < matchLenAt read ref i))]
  exact_mod_cast hlt

theorem foldl_scanStep_stable (read ref : List Char) (minMatch : ℕ) :
    ∀ (l : List ℕ) (st : ℚ × ℤ), 1 ≤ st.1 →
      l.foldl (scanStep read ref minMatch) st = st := by
  intro l
  induction l with
  | nil => intro st _; rfl
  | cons i l ih =>
    intro st h
    simp only [List.foldl_cons]
    have hstep : scanStep read ref minMatch st i = st := by
      unfold scanStep
      have hnlt : ¬ st.1 < scoreAt read ref i :=
        not_lt.mpr (le_trans (scoreAt_le_one read ref i) h)
      split_ifs <;> simp_all
    rw [hstep]
    exact ih st h

theorem foldl_scanStep_first_perfect (read ref : List Char) (minMatch : ℕ)
    (hm : 0 < minMatch) :
    ∀ (l : List ℕ) (st : ℚ × ℤ) (q : ℕ), st.1 < 1 →
      l.find? (perfectB read ref minMatch) = some q →
      l.foldl (scanStep read ref minMatch) st = (1, (q : ℤ)) := by
  intro l
  induction l with
  | nil => intro st q _ hf; simp at hf
  | cons a l ih =>
    intro st q h hf
    by_cases hpa : perfectB read ref minMatch a = true
    · rw [List.find?_cons_of_pos l hpa] at hf
      cases hf
      simp only [List.foldl_cons]
      have h1 : scoreAt read ref a = 1 :=
        scoreAt_eq_one_of_perfect read ref minMatch a hm hpa
      have hlen : ¬ matchLenAt read ref a < minMatch := by
        unfold perfectB at hpa
        simp only [Bool.and_eq_true, decide_eq_true_eq] at hpa
        omega
      have hstep : scanStep read ref minMatch st a = (1, (a : ℤ)) := by
        unfold scanStep
        rw [if_neg hlen, if_pos (by rw [h1]; exact h), h1]
      rw [hstep]
      exact foldl_scanStep_stable read ref minMatch l (1, (a : ℤ)) (le_refl 1)
    · rw [List.find?_cons_of_neg l hpa] at hf
      simp only [List.foldl_cons]
      have hst' : (scanStep read ref minMatch st a).1 < 1 := by
        unfold scanStep
        split_ifs with h1 h2
        · exact h
        · exact scoreAt_lt_one_of_imperfect read ref minMatch a h1 hm hpa
        · exact h
      exact ih (scanStep read ref minMatch st a) q hst' hf

theorem find?_le_of_mem_pairwise :
    ∀ (l : List ℕ), l.Pairwise (· < ·) → ∀ (pred : ℕ → Bool) (q p : ℕ),
      l.find? pred = some q → p ∈ l → pred p = true → q ≤ p := by
  intro l
  induction l with
  | nil => intro _ pred q p hf hm _; simp at hm
  | cons a l ih =>
    intro hp pred q p hf hm hpred
    by_cases ha : pred a = true
    · rw [List.find?_cons_of_pos l ha] at hf
      cases hf
      rcases List.mem_cons.mp hm with rfl | hmem
      · exact le_refl p
      · exact le_of_lt ((List.pairwise_cons.mp hp).1 p hmem)
    · rw [List.find?_cons_of_neg l ha] at hf
      rcases List.mem_cons.mp hm with rfl | hmem
      · exact absurd hpred ha
      · exact ih (List.pairwise_cons.mp hp).2 pred q p hf hmem hpred

theorem pairwise_candidates (readLen refLen minMatch : ℕ) :
    (candidates readLen refLen minMatch).Pairwise (· < ·) := by
  unfold candidates
  exact List.pairwise_lt_range' _ _

theorem mem_candidates (readLen refLen minMatch p : ℕ) (hm : 0 < minMatch)
    (hwin : (refLen : ℤ) - (readLen : ℤ) - 100 ≤ (p : ℤ))
    (hfit : p + minMatch ≤ refLen) :
    p ∈ candidates readLen refLen minMatch := by
  unfold candidates
  rw [List.mem_range'_1]
  omega

theorem perfectB_at_substring (read ref : List Char) (p : ℕ)
    (h20 : 20 ≤ read.length) (hsub : read = (ref.drop p).take read.length)
    (hfit : p + read.length ≤ ref.length) :
    perfectB read ref 20 p = true := by
  have hL : matchLenAt read ref p = read.length := by
    unfold matchLenAt
    omega
  have hM : matchesAt read ref p = read.length := by
    unfold matchesAt
    rw [hL, List.take_length read, ← hsub]
    exact countMatches_self read
  unfold perfectB
  rw [hL, hM]
  simp [h20]

/-- C1 amended: for a read that is a verbatim substring of the reference at
position `p` with length ≥ 20, IF `p` additionally lies in the scanned
candidate window (`p ≥ ref_len − read_len − 100`), then `simple_align`
maps the read: the scan's best score is exactly 1.0 (above the 0.70
threshold) and the returned position is the first candidate position whose
window matches the reference perfectly — a position `≤ p`, equal to `p`
whenever no earlier candidate window also matches perfectly. The original
claim (`align` returns `p` itself for EVERY `p`) is refuted by
`exact_substring_not_recovered`. -/
theorem simple_align_exact_in_window (ref read : List Char) (p : ℕ)
    (h20 : 20 ≤ read.length) (hsub : read = (ref.drop p).take read.length)
    (hfit : p + read.length ≤ ref.length)
    (hwin : (ref.length : ℤ) - (read.length : ℤ) - 100 ≤ (p : ℤ)) :
    ∃ q : ℕ,
      (candidates read.length ref.length 20).find? (perfectB read ref 20) = some q ∧
      q ≤ p ∧ perfectB read ref 20 q = true ∧
      alignScan read ref 20 = (1, (q : ℤ)) ∧
      simple_align read ref 20 = (q : ℤ) := by
  have hmem : p ∈ candidates read.length ref.length 20 :=
    mem_candidates read.length ref.length 20 p (by norm_num) hwin (by omega)
  have hperf := perfectB_at_substring read ref p h20 hsub hfit
  have hs : ((candidates read.length ref.length 20).find? (perfectB read ref 20)).isSome :=
    List.find?_isSome.mpr ⟨p, hmem, hperf⟩
  rw [Option.isSome_iff_exists] at hs
  obtain ⟨q, hq⟩ := hs
  have hqperf : perfectB read ref 20 q = true := List.find?_some hq
  have hqle : q ≤ p := find?_le_of_mem_pairwise _
    (pairwise_candidates read.length ref.length 20) _ q p hq hmem hperf
  have hfwd : (candidates read.length ref.length 20).foldl
      (scanStep read ref 20) (0, -1) = (1, (q : ℤ)) :=
    foldl_scanStep_first_perfect read ref 20 (by norm_num) _ (0, -1) q
      (by norm_num) hq
  have halign : alignScan read ref 20 = (1, (q : ℤ)) := by
    simp only [alignScan]
    rw [hfwd]
    exact foldl_scanStep_stable (reverse_complement read) ref 20 _ (1, (q : ℤ))
      (le_refl 1)
  refine ⟨q, hq, hqle, hqperf, halign, ?_⟩
  simp only [simple_align]
  rw [halign]
  norm_num

set_option maxRecDepth 1000000 in
/-- C1 counterexample: the read C^20 is a verbatim substring of the
reference C^20 A^101 at position 0 and is 20 characters long, yet
`simple_align` does not return 0: the candidate window starts at
`ref_len − read_len − 100 = 1`, so position 0 is never scanned and the
best-scoring scanned window (position 1, score 19/20) is returned
instead. -/
theorem exact_substring_not_recovered :
    (List.replicate 20 'C' : List Char) =
      ((List.replicate 20 'C' ++ List.replicate 101 'A' : List Char).drop 0).take
        (List.replicate 20 'C' : List Char).length ∧
    20 ≤ (List.replicate 20 'C' : List Char).length ∧
    0 + (List.replicate 20 'C' : List Char).length ≤
      (List.replicate 20 'C' ++ List.replicate 101 'A' : List Char).length ∧
    simple_align (List.replicate 20 'C')
      (List.replicate 20 'C' ++ List.replicate 101 'A') 20 = 1 ∧
    (1 : ℤ) ≠ ((0 : ℕ) : ℤ) := by
  refine ⟨by decide, by decide, by decide, ?_, by decide⟩
  rw [simple_align_eq_exec]
  decide

/-- Witness for C1 at a concrete in-window exact substring: reference
A^5 C^20 G^5, read C^20 at p = 5. -/
theorem simple_align_exact_in_window_witness :
    (20 ≤ (List.replicate 20 'C' : List Char).length ∧
      (List.replicate 20 'C' : List Char) =
        ((List.replicate 5 'A' ++ List.replicate 20 'C' ++ List.replicate 5 'G' :
          List Char).drop 5).take (List.replicate 20 'C' : List Char).length ∧
      5 + (List.replicate 20 'C' : List Char).length ≤
        (List.replicate 5 'A' ++ List.replicate 20 'C' ++ List.replicate 5 'G' :
          List Char).length ∧
      ((List.replicate 5 'A' ++ List.replicate 20 'C' ++ List.replicate 5 'G' :
          List Char).length : ℤ) - ((List.replicate 20 'C' : List Char).length : ℤ) -
        100 ≤ ((5 : ℕ) : ℤ)) ∧
    ∃ q : ℕ,
      (candidates (List.replicate 20 'C' : List Char).length
          (List.replicate 5 'A' ++ List.replicate 20 'C' ++ List.replicate 5 'G' :
            List Char).length 20).find?
        (perfectB (List.replicate 20 'C')
          (List.replicate 5 'A' ++ List.replicate 20 'C' ++ List.replicate 5 'G') 20) =
        some q ∧
      q ≤ 5 ∧
      perfectB (List.replicate 20 'C')
        (List.replicate 5 'A' ++ List.replicate 20 'C' ++ List.replicate 5 'G') 20 q =
        true ∧
      alignScan (List.replicate 20 'C')
        (List.replicate 5 'A' ++ List.replicate 20 'C' ++ List.replicate 5 'G') 20 =
        (1, (q : ℤ)) ∧
      simple_align (List.replicate 20 'C')
        (List.replicate 5 'A' ++ List.replicate 20 'C' ++ List.replicate 5 'G') 20 =
        (q : ℤ) :=
  ⟨⟨by decide, by decide, by decide, by decide⟩,
    simple_align_exact_in_window
      (List.replicate 5 'A' ++ List.replicate 20 'C' ++ List.replicate 5 'G')
      (List.replicate 20 'C') 5 (by decide) (by decide) (by decide) (by decide)⟩

end CovEngine
